import Mathlib

/-!
# Verification of the Neurix (Splitwise) expense-sharing application

Shallow embedding of the repository's balance / expense-splitting logic.

Modelling conventions:
* JavaScript numbers are modelled as exact rationals (`ℚ`).  The
  frontend manipulates small decimal amounts and percentages; the
  embedding performs the same arithmetic exactly.
* Monetary amounts in the backend core (split calculator, ledger
  aggregator, settlement reducer) are modelled in integer minor units
  (cents, `ℤ`), as the specification prescribes.
* JavaScript objects keyed by numeric user ids (`percentageSplits`) are
  modelled as association lists `List (ℤ × ℚ)` with at most one entry
  per key; `objSet` replaces an existing key, matching object-property
  assignment.
* `x || d` on numbers (JS falsy-default) is modelled by `jsOrElseZero` /
  `jsOrNat`: the value `0` is falsy and is replaced by the default.
-/

namespace Neurix

/-! ## JS-number helpers -/

/-- Model of the JS idiom `x || 0` on a possibly-missing number: a missing
value or the falsy value `0` yields `0`, anything else is returned. -/
def jsOrElseZero : Option ℚ → ℚ
  | none => 0
  | some p => if p = 0 then 0 else p

/-- Model of the JS idiom `n || d` on a natural count: `0` is falsy. -/
def jsOrNat (n d : ℕ) : ℕ :=
  if n = 0 then d else n

/-! ## Decimal rendering: model of `Number.prototype.toFixed`

`toFixed(f)` picks the integer `n` minimising `|n / 10^f - x|`, taking
the larger `n` on ties, and renders `n / 10^f` with exactly `f`
fractional digits.  Over `ℚ` this is `⌊x·10^f + 1/2⌋`.  Digits are
rendered by a bespoke renderer so that facts about the produced strings
are provable. -/

/-- One decimal digit character (argument taken mod 10). -/
def digitChar (n : ℕ) : Char :=
  if n % 10 = 0 then '0' else if n % 10 = 1 then '1' else if n % 10 = 2 then '2'
  else if n % 10 = 3 then '3' else if n % 10 = 4 then '4' else if n % 10 = 5 then '5'
  else if n % 10 = 6 then '6' else if n % 10 = 7 then '7' else if n % 10 = 8 then '8'
  else '9'

/-- Decimal digit list of a natural number, least significant first,
with explicit fuel (structural recursion, so the kernel can evaluate
it). -/
def natDigitsRev : ℕ → ℕ → List Char
  | 0, _ => []
  | fuel + 1, n =>
    if n < 10 then [digitChar n]
    else digitChar (n % 10) :: natDigitsRev fuel (n / 10)

/-- Decimal digit list of a natural number, most significant first. -/
def natDigits (n : ℕ) : List Char :=
  (natDigitsRev (n + 1) n).reverse

/-- Exactly `f` fractional digit characters of `n` (which represents a
fraction `n / 10^f` with `n < 10^f`), most significant first. -/
def fracChars (f n : ℕ) : List Char :=
  match f with
  | 0 => []
  | f + 1 => digitChar (n / 10 ^ f) :: fracChars f (n % 10 ^ f)

/-- Rendering stage of `toFixed`: display `n / 10^f` (for an integer
`n`) with exactly `f` fractional digits (no decimal point when
`f = 0`). -/
def jsToFixedInt (f : ℕ) (n : ℤ) : String :=
  let sign : List Char := if n < 0 then ['-'] else []
  let mag : ℕ := n.natAbs
  match f with
  | 0 => ⟨sign ++ natDigits mag⟩
  | f + 1 => ⟨sign ++ natDigits (mag / 10 ^ (f + 1)) ++ '.' :: fracChars (f + 1) (mag % 10 ^ (f + 1))⟩

/-- Model of `x.toFixed(f)` over exact rationals: round `x·10^f` to the
nearest integer taking the larger value on ties, then render with `f`
fractional digits. -/
def jsToFixed (f : ℕ) (x : ℚ) : String :=
  jsToFixedInt f ⌊x * 10 ^ f + 1 / 2⌋

/-- Number of digits after the final decimal point of a character list
(`0` when there is no point). -/
def fracDigitCountL (l : List Char) : ℕ :=
  if '.' ∈ l then (l.reverse.takeWhile (· ≠ '.')).length else 0

/-- Number of digits after the final decimal point of a rendered number
(`0` when there is no point). -/
def fracDigitCount (s : String) : ℕ :=
  fracDigitCountL s.toList

/-! ## Data model (frontend `lib/api.ts` interfaces) -/

/-- `User` from `frontend/src/lib/api.ts`. -/
structure User where
  id : ℤ
  name : String
  email : String
deriving DecidableEq

/-- `Group` from `frontend/src/lib/api.ts` (`created_at` omitted: no claim
mentions it and it does not enter any computation). -/
structure Group where
  id : ℤ
  name : String
  users : List User
  total_expenses : ℚ
deriving DecidableEq

/-- `GroupSummary` as consumed by `Dashboard.tsx` / `GroupBalances.tsx`
(`id`, `name`, `member_count`, `total_expenses`). -/
structure GroupSummary where
  id : ℤ
  name : String
  member_count : ℕ
  total_expenses : ℚ
deriving DecidableEq

/-- `Balance` row returned by the group-balances query. -/
structure Balance where
  user_id : ℤ
  user_name : String
  balance : ℚ
deriving DecidableEq

/-- Split type of an expense. -/
inductive SplitType where
  | equal
  | percentage
deriving DecidableEq

/-- `ExpenseSplitInput` from `frontend/src/lib/api.ts`. -/
structure ExpenseSplitInput where
  user_id : ℤ
  percentage : ℚ
deriving DecidableEq

/-- `ExpenseCreate` from `frontend/src/lib/api.ts`: the payload of the
expense-creation request.  `paid_by` is `Option ℤ` because the source
stores `parseInt(paidBy)`, which is `NaN` (modelled `none`) on a
non-numeric string. -/
structure ExpenseCreate where
  description : String
  amount : ℚ
  paid_by : Option ℤ
  split_type : SplitType
  splits : Option (List ExpenseSplitInput)
deriving DecidableEq

/-! ## `GroupBalances.tsx`: `formatBalance`

The repository snapshot contains two variants of the component.
`formatBalance_v1` is the first variant (lines 40–61): positive
balances get the text `owes $…`.  `formatBalance_v2` is the second
variant (lines 288–309): positive balances get `is owed $…`.  Both
colour positive green and negative red, and both components render the
legend "Positive balance (Green): This person is owed money". -/

/-- Return value of `formatBalance`. -/
structure BalanceFormat where
  text : String
  color : String
  bgColor : String
deriving DecidableEq

/-- `formatBalance`, first `GroupBalances.tsx` variant (lines 40–61). -/
def formatBalance_v1 (balance : ℚ) : BalanceFormat :=
  let absBalance := |balance|
  if balance > 0 then
    { text := "owes $" ++ jsToFixed 2 absBalance
      color := "text-green-600", bgColor := "bg-green-50" }
  else if balance < 0 then
    { text := "is owed $" ++ jsToFixed 2 absBalance
      color := "text-red-600", bgColor := "bg-red-50" }
  else
    { text := "is settled up"
      color := "text-gray-600", bgColor := "bg-gray-50" }

/-- `formatBalance`, second `GroupBalances.tsx` variant (lines 288–309). -/
def formatBalance_v2 (balance : ℚ) : BalanceFormat :=
  let absBalance := |balance|
  if balance > 0 then
    { text := "is owed $" ++ jsToFixed 2 absBalance
      color := "text-green-600", bgColor := "bg-green-50" }
  else if balance < 0 then
    { text := "owes $" ++ jsToFixed 2 absBalance
      color := "text-red-600", bgColor := "bg-red-50" }
  else
    { text := "is settled up"
      color := "text-gray-600", bgColor := "bg-gray-50" }

/-- The legend rendered by both `GroupBalances.tsx` variants under the
balance cards (lines 177–190 / 480–493). -/
def groupBalancesLegend : List String :=
  [ "Positive balance (Green): This person is owed money"
  , "Negative balance (Red): This person owes money"
  , "Zero balance (Gray): This person is settled up" ]

/-! ## `Dashboard.tsx`: aggregate expense totals -/

/-- Model of `(group.total_expenses || 0)`: `0` is falsy, so the default
leaves the value unchanged. -/
def qOrZero (x : ℚ) : ℚ := if x = 0 then 0 else x

/-- Aggregate of all groups' `total_expenses`
(`groups.reduce((sum, group) => sum + (group.total_expenses || 0), 0)`). -/
def dashboardAggregate (groups : List GroupSummary) : ℚ :=
  groups.foldl (fun sum group => sum + qOrZero group.total_expenses) 0

/-- The "Total Expenses" stat card text (`Dashboard.tsx` lines 121–127):
the aggregate rendered with `.toFixed(0)`. -/
def dashboardTotalExpensesText (groups : List GroupSummary) : String :=
  jsToFixed 0 (dashboardAggregate groups)

/-- The "Total Amount" stat card text (`Dashboard.tsx` lines 146–154):
the aggregate rendered with `.toFixed(2)` (the leading `$` is a separate
JSX text node). -/
def dashboardTotalAmountText (groups : List GroupSummary) : String :=
  jsToFixed 2 (dashboardAggregate groups)

/-! ## JS object / string-parsing helpers used by `AddExpense.tsx` -/

/-- Property assignment on an object keyed by user id: replaces the value
of an existing key, otherwise appends the new binding. -/
def objSet (m : List (ℤ × ℚ)) (k : ℤ) (v : ℚ) : List (ℤ × ℚ) :=
  if m.any (fun e => e.1 = k) then m.map (fun e => if e.1 = k then (k, v) else e)
  else m ++ [(k, v)]

/-- Property lookup (`undefined` is `none`). -/
def objGet (m : List (ℤ × ℚ)) (k : ℤ) : Option ℚ :=
  (m.find? (fun e => e.1 = k)).map Prod.snd

/-- Model of JS `String.prototype.trim`: strip leading and trailing
whitespace. -/
def jsTrim (s : String) : String :=
  ⟨((s.toList.dropWhile Char.isWhitespace).reverse.dropWhile Char.isWhitespace).reverse⟩

def isDigitChar (c : Char) : Bool := '0' ≤ c && c ≤ '9'

def digitVal (c : Char) : ℕ := c.toNat - '0'.toNat

def natOfDigits (l : List Char) : ℕ :=
  l.foldl (fun acc c => acc * 10 + digitVal c) 0

/-- Model of JS `parseFloat` restricted to the plain decimal literals the
amount `<input type="number">` produces: optional leading spaces, an
optional sign, then an integer part and/or a fractional part (exponents
are outside the modelled fragment).  `none` models `NaN` (no digit in
the numeric prefix). -/
def jsParseFloat (s : String) : Option ℚ :=
  let cs₀ := s.toList.dropWhile (fun c => c = ' ')
  let signed : ℚ × List Char :=
    match cs₀ with
    | '-' :: rest => (-1, rest)
    | '+' :: rest => (1, rest)
    | _ => (1, cs₀)
  let cs := signed.2
  let intDigits := cs.takeWhile isDigitChar
  let fracDigits :=
    match cs.dropWhile isDigitChar with
    | '.' :: r => r.takeWhile isDigitChar
    | _ => []
  if intDigits.isEmpty && fracDigits.isEmpty then none
  else some (signed.1 *
    ((natOfDigits intDigits : ℚ) + (natOfDigits fracDigits : ℚ) / 10 ^ fracDigits.length))

/-- Model of JS `parseInt` on the id strings used by the form (optional
leading spaces and sign, then a digit prefix); `none` models `NaN`. -/
def jsParseInt (s : String) : Option ℤ :=
  let cs₀ := s.toList.dropWhile (fun c => c = ' ')
  let signed : ℤ × List Char :=
    match cs₀ with
    | '-' :: rest => (-1, rest)
    | '+' :: rest => (1, rest)
    | _ => (1, cs₀)
  let ds := signed.2.takeWhile isDigitChar
  if ds.isEmpty then none else some (signed.1 * natOfDigits ds)

/-! ## `AddExpense.tsx` -/

/-- Divisor of the equal-percentage computation in
`initializePercentageSplits` (first variant, lines 62–69):
`group.users?.length || 1`.  An absent member list behaves exactly like
an empty one (`undefined || 1` and `0 || 1` both give `1`). -/
def initializePercentageSplits_divisor (group : Group) : ℕ :=
  jsOrNat group.users.length 1

/-- `initializePercentageSplits` (`AddExpense.tsx` first variant,
lines 62–69): assign `100 / (group.users?.length || 1)` to every
member. -/
def initializePercentageSplits (group : Group) : List (ℤ × ℚ) :=
  let equalPercentage : ℚ := 100 / (initializePercentageSplits_divisor group : ℚ)
  group.users.foldl (fun splits u => objSet splits u.id equalPercentage) []

/-- Divisor of the equal-percentage computation in `handleGroupIdChange`
(second and third variants, lines 480–489 and 856–865):
`group.users.length`, with no guard. -/
def handleGroupIdChange_divisor (group : Group) : ℕ :=
  group.users.length

/-- The percentage-splits object built by `handleGroupIdChange`
(lines 480–489 / 856–865): `100 / group.users.length` for every member.
(In JS a division by zero yields `Infinity`, but the loop body never
runs for an empty member list, so no such value is ever stored.) -/
def handleGroupIdChange_splits (group : Group) : List (ℤ × ℚ) :=
  let equalPercentage : ℚ := 100 / (handleGroupIdChange_divisor group : ℚ)
  group.users.foldl (fun splits u => objSet splits u.id equalPercentage) []

/-- `getTotalPercentage`: `Object.values(percentageSplits).reduce((sum, p) => sum + p, 0)`. -/
def getTotalPercentage (percentageSplits : List (ℤ × ℚ)) : ℚ :=
  (percentageSplits.map Prod.snd).foldl (fun sum percentage => sum + percentage) 0

/-- The component state consumed by `handleSubmit`. -/
structure AddExpenseForm where
  selectedGroup : Option Group
  description : String
  amount : String
  paidBy : String
  splitType : SplitType
  percentageSplits : List (ℤ × ℚ)

/-- Outcome of a submission: either a validation error message is shown
and no request is issued, or a `createExpense` request is issued. -/
inductive SubmitResult where
  | error (text : String)
  | request (groupId : ℤ) (expense : ExpenseCreate)
deriving DecidableEq

/-- `handleSubmit` (`AddExpense.tsx`, identical logic in all variants:
lines 102–165 / 515–581 / 891–957), as the pure function from form state
to the action taken.  Guard order follows the source:
1. `!selectedGroup || !description.trim() || !amount || !paidBy`;
2. `isNaN(amountNum) || amountNum <= 0` for `amountNum = parseFloat(amount)`;
3. for percentage splits, `Math.abs(totalPercentage - 100) > 0.01`;
then the `createExpense(selectedGroup.id, expense)` request is issued,
with `splits` attached only for percentage splits. -/
def handleSubmit (st : AddExpenseForm) : SubmitResult :=
  match st.selectedGroup with
  | none => .error "Please fill in all required fields"
  | some selectedGroup =>
    if jsTrim st.description = "" || st.amount = "" || st.paidBy = "" then
      .error "Please fill in all required fields"
    else
      match jsParseFloat st.amount with
      | none => .error "Please enter a valid amount"
      | some amountNum =>
        if amountNum ≤ 0 then
          .error "Please enter a valid amount"
        else
          let totalPercentage := getTotalPercentage st.percentageSplits
          if st.splitType = .percentage ∧ |totalPercentage - 100| > 1/100 then
            .error ("Percentages must sum to 100% (currently "
              ++ jsToFixed 1 totalPercentage ++ "%)")
          else
            .request selectedGroup.id
              { description := jsTrim st.description
                amount := amountNum
                paid_by := jsParseInt st.paidBy
                split_type := st.splitType
                splits :=
                  if st.splitType = .percentage then
                    some (selectedGroup.users.map fun user =>
                      { user_id := user.id
                        percentage := jsOrElseZero (objGet st.percentageSplits user.id) })
                  else none }

/-! ## Backend core (spec-modelled)

The repository snapshot contains the backend only as a README and its
callers (the e2e test and the frontend API client); the Python modules
implementing the Split Calculator, Ledger Aggregator and Settlement
Reducer are not under `src/`.  The definitions below are therefore
modelled from the specification (§4.1–§4.3), in integer minor units
(cents), as the spec prescribes. -/

/-- Round a rational to the nearest integer, ties to even
(round-half-to-even, §4.1). -/
def roundHalfEven (x : ℚ) : ℤ :=
  let f := ⌊x⌋
  let r := x - f
  if r < 1/2 then f
  else if 1/2 < r then f + 1
  else if Even f then f else f + 1

/-- Validation failure of the Split Calculator. -/
inductive SplitErr where
  | validationError (msg : String)
deriving DecidableEq

/-- Modelled from the spec: equal-split branch of the backend Split
Calculator (missing from `src/`), §4.1.  Per-participant owed amount is
the raw quotient rounded half-to-even to cents; the residual is assigned
to the first participant in ascending user-id order so the split amounts
sum exactly to `amount`. -/
def computeSplitsEqual (amount : ℤ) (participants : List ℤ) : List (ℤ × ℤ) :=
  let sorted := participants.insertionSort (· ≤ ·)
  let n := participants.length
  let base := roundHalfEven ((amount : ℚ) / (n : ℚ))
  match sorted with
  | [] => []
  | p :: rest => (p, base + (amount - n * base)) :: rest.map (fun u => (u, base))

/-- Modify the owed amount at one index of a split list. -/
def modifyIdx : List (ℤ × ℤ) → ℕ → (ℤ → ℤ) → List (ℤ × ℤ)
  | [], _, _ => []
  | e :: l, 0, f => (e.1, f e.2) :: l
  | e :: l, n + 1, f => e :: modifyIdx l n f

/-- Index of the entry with the largest percentage; on ties the first
entry wins, which is the ascending-user-id tie-break once the list is
sorted by user id. -/
def argmaxIdx (ps : List (ℤ × ℚ)) : ℕ :=
  match ps with
  | [] => 0
  | e :: _ =>
    let m := ps.foldl (fun acc p => max acc p.2) e.2
    ps.findIdx (fun p => p.2 = m)

/-- Modelled from the spec: percentage-split branch of the backend Split
Calculator (missing from `src/`), §4.1.  Each owed amount is
`amount * percentage / 100` rounded to cents; the rounding residual is
assigned to the participant with the largest percentage (ties broken by
ascending user id) so the split amounts sum exactly to `amount`. -/
def computeSplitsPercentage (amount : ℤ) (percentages : List (ℤ × ℚ)) : List (ℤ × ℤ) :=
  let sorted := percentages.insertionSort (fun a b => a.1 ≤ b.1)
  let owed := sorted.map (fun p => (p.1, roundHalfEven ((amount : ℚ) * p.2 / 100)))
  let residual := amount - (owed.map Prod.snd).sum
  modifyIdx owed (argmaxIdx sorted) (fun v => v + residual)

/-- The percentage mapping covers exactly the participant set
(no missing and no extra users). -/
def sameParticipantSet (participants : List ℤ) (keys : List ℤ) : Bool :=
  participants.all (fun u => keys.contains u) && keys.all (fun k => participants.contains k)

/-- Modelled from the spec: the backend Split Calculator
`computeSplits(amount, policy, participants, percentages?)` (missing
from `src/`), §4.1–§4.2 of the spec.  Amount is in cents; errors are
`ValidationError`s for an empty participant set, a non-positive amount,
a percentage set mismatch, or percentages not summing to 100 ± 0.01. -/
def computeSplits (amount : ℤ) (policy : SplitType) (participants : List ℤ)
    (percentages : List (ℤ × ℚ)) : Except SplitErr (List (ℤ × ℤ)) :=
  if participants.isEmpty then .error (.validationError "empty participant set")
  else if amount ≤ 0 then .error (.validationError "non-positive amount")
  else match policy with
  | .equal => .ok (computeSplitsEqual amount participants)
  | .percentage =>
    if ¬ sameParticipantSet participants (percentages.map Prod.fst) then
      .error (.validationError "percentage set mismatch")
    else if |(percentages.map Prod.snd).sum - 100| > 1/100 then
      .error (.validationError "percentages must sum to 100")
    else .ok (computeSplitsPercentage amount percentages)

/-- A stored expense as the Ledger Aggregator consumes it: payer, amount
in cents, and the stored splits (user, owed cents). -/
structure Expense where
  paid_by : ℤ
  amount : ℤ
  splits : List (ℤ × ℤ)
deriving DecidableEq

/-- Total a user paid across the expenses in scope (the payer is
credited the full expense amount once per expense). -/
def paidTotal (expenses : List Expense) (u : ℤ) : ℤ :=
  (expenses.map (fun e => if e.paid_by = u then e.amount else 0)).sum

/-- Total a user owes across the expense splits in scope. -/
def owesTotal (expenses : List Expense) (u : ℤ) : ℤ :=
  (expenses.map (fun e => (e.splits.map (fun s => if s.1 = u then s.2 else 0)).sum)).sum

/-- Modelled from the spec: the backend Ledger Aggregator
`computeGroupBalances` (missing from `src/`), §4.2: every member of the
group appears with net balance = total paid − total owed, computed in
integer cents. -/
def computeGroupBalances (members : List ℤ) (expenses : List Expense) : List (ℤ × ℤ) :=
  members.map (fun u => (u, paidTotal expenses u - owesTotal expenses u))

/-- A settlement transfer instruction. -/
structure Settlement where
  from_user : ℤ
  to_user : ℤ
  amount : ℤ
deriving DecidableEq

/-- The debtor with the largest absolute debt (most negative balance),
ties broken by ascending user id. -/
def pickDebtor : List (ℤ × ℤ) → Option (ℤ × ℤ)
  | [] => none
  | e :: l => some (l.foldl (fun best x =>
      if x.2 < best.2 ∨ (x.2 = best.2 ∧ x.1 < best.1) then x else best) e)

/-- The creditor with the largest credit, ties broken by ascending
user id. -/
def pickCreditor : List (ℤ × ℤ) → Option (ℤ × ℤ)
  | [] => none
  | e :: l => some (l.foldl (fun best x =>
      if best.2 < x.2 ∨ (x.2 = best.2 ∧ x.1 < best.1) then x else best) e)

/-- Write the party's new balance back, removing the party when the
balance hits zero. -/
def updateOrRemove (l : List (ℤ × ℤ)) (k : ℤ) (v : ℤ) : List (ℤ × ℤ) :=
  if v = 0 then l.filter (fun e => ¬ e.1 = k)
  else l.map (fun e => if e.1 = k then (k, v) else e)

/-- The greedy matching loop of the Settlement Reducer: repeatedly settle
`min(|debt|, credit)` between the largest debtor and the largest
creditor.  Each round removes at least one party, so fuel equal to the
number of parties suffices. -/
def settleLoop : ℕ → List (ℤ × ℤ) → List (ℤ × ℤ) → List Settlement
  | 0, _, _ => []
  | fuel + 1, debtors, creditors =>
    match pickDebtor debtors, pickCreditor creditors with
    | some d, some c =>
      let m := min (-d.2) c.2
      ⟨d.1, c.1, m⟩ :: settleLoop fuel (updateOrRemove debtors d.1 (d.2 + m))
        (updateOrRemove creditors c.1 (c.2 - m))
    | _, _ => []

/-- Modelled from the spec: the backend Settlement Reducer
`reduceToSettlements` (missing from `src/`), §4.3: partition the
balances into debtors and creditors, discard zero balances, and run the
greedy largest-magnitude matching.  In integer cents the
`|amount| < 0.01` dust threshold is exactly `= 0`. -/
def reduceToSettlements (balances : List (ℤ × ℤ)) : List Settlement :=
  let debtors := balances.filter (fun b => b.2 < 0)
  let creditors := balances.filter (fun b => b.2 > 0)
  settleLoop (debtors.length + creditors.length) debtors creditors

/-- Net effect of applying a transfer list to one user's balance: each
transfer moves the payer's balance up by `amount` (the debt shrinks) and
the payee's balance down by `amount` (the credit is repaid). -/
def applyNet (u : ℤ) (ts : List Settlement) : ℤ :=
  (ts.map (fun t => (if t.from_user = u then t.amount else 0)
    - (if t.to_user = u then t.amount else 0))).sum

/-- Number of nonzero balances in the input. -/
def nonZeroCount (balances : List (ℤ × ℤ)) : ℕ :=
  (balances.filter (fun b => b.2 ≠ 0)).length

/-- Total balance held by user `u` in a balance list (the balance of the
unique entry with key `u` when keys are distinct, `0` when absent). -/
def lbal (l : List (ℤ × ℤ)) (u : ℤ) : ℤ :=
  ((l.filter (fun e => e.1 = u)).map Prod.snd).sum

/-- A concrete two-member percentage-split form state: the first member
is assigned `p1` percent, the second `p2` percent; the other fields are
valid. -/
def percentState (p1 p2 : ℚ) : AddExpenseForm :=
  { selectedGroup := some ⟨5, "Trip", [⟨1, "Alice", "alice@x.io"⟩, ⟨2, "Bob", "bob@x.io"⟩], 0⟩
    description := "dinner"
    amount := "120"
    paidBy := "1"
    splitType := .percentage
    percentageSplits := [(1, p1), (2, p2)] }

/-! ## Theorems -/

theorem jsOrElseZero_eq_getD (o : Option ℚ) : jsOrElseZero o = o.getD 0 := by
  cases o with
  | none => rfl
  | some p =>
    simp only [jsOrElseZero, Option.getD_some]
    split <;> simp_all

theorem digitChar_ne_dot (n : ℕ) : digitChar n ≠ '.' := by
  unfold digitChar
  repeat' split
  all_goals decide

theorem dot_not_mem_natDigitsRev (fuel n : ℕ) : '.' ∉ natDigitsRev fuel n := by
  induction fuel generalizing n with
  | zero => simp [natDigitsRev]
  | succ fuel ih =>
    unfold natDigitsRev
    split
    · simpa using Ne.symm (digitChar_ne_dot n)
    · simpa using ⟨Ne.symm (digitChar_ne_dot (n % 10)), ih _⟩

theorem dot_not_mem_natDigits (n : ℕ) : '.' ∉ natDigits n := by
  intro h
  exact dot_not_mem_natDigitsRev (n + 1) n (by simpa [natDigits] using h)

theorem fracChars_length (f n : ℕ) : (fracChars f n).length = f := by
  induction f generalizing n with
  | zero => rfl
  | succ f ih => simp [fracChars, ih]

theorem dot_not_mem_fracChars (f n : ℕ) : '.' ∉ fracChars f n := by
  induction f generalizing n with
  | zero => simp [fracChars]
  | succ f ih =>
    simpa [fracChars] using ⟨(digitChar_ne_dot _).symm, ih _⟩

theorem takeWhile_append_dot (b rest : List Char) (hb : '.' ∉ b) :
    List.takeWhile (fun c => decide (c ≠ '.')) (b ++ '.' :: rest) = b := by
  induction b with
  | nil => simp
  | cons c cs ih =>
    have hc : c ≠ '.' := fun h => hb (h ▸ List.mem_cons_self c cs)
    have hcs : '.' ∉ cs := fun h => hb (List.mem_cons_of_mem _ h)
    simp only [List.cons_append, List.takeWhile_cons, decide_not, hc, decide_False,
      Bool.not_false, if_true]
    rw [show (fun c => !decide (c = '.')) = (fun c => decide (c ≠ '.')) by
      funext c; simp [decide_not]]
    rw [ih hcs]

theorem fracDigitCountL_append (a b : List Char) (hb : '.' ∉ b) :
    fracDigitCountL (a ++ '.' :: b) = b.length := by
  unfold fracDigitCountL
  rw [if_pos (by simp)]
  have hrev : (a ++ '.' :: b).reverse = b.reverse ++ '.' :: a.reverse := by
    simp
  rw [hrev, takeWhile_append_dot _ _ (by simpa using hb), List.length_reverse]

theorem fracDigitCountL_no_dot (l : List Char) (h : '.' ∉ l) :
    fracDigitCountL l = 0 := by
  unfold fracDigitCountL
  rw [if_neg h]

theorem fracDigitCount_jsToFixedInt_two (n : ℤ) : fracDigitCount (jsToFixedInt 2 n) = 2 := by
  show fracDigitCountL
    ((if n < 0 then ['-'] else [])
      ++ natDigits (n.natAbs / 10 ^ 2)
      ++ '.' :: fracChars 2 (n.natAbs % 10 ^ 2)) = 2
  have h2 := fracDigitCountL_append
      ((if n < 0 then ['-'] else []) ++ natDigits (n.natAbs / 10 ^ 2))
      (fracChars 2 (n.natAbs % 10 ^ 2))
      (dot_not_mem_fracChars _ _)
  rw [fracChars_length] at h2
  simpa [List.append_assoc] using h2

theorem fracDigitCount_jsToFixed_two (x : ℚ) : fracDigitCount (jsToFixed 2 x) = 2 :=
  fracDigitCount_jsToFixedInt_two _

theorem fracDigitCount_jsToFixedInt_zero (n : ℤ) : fracDigitCount (jsToFixedInt 0 n) = 0 := by
  show fracDigitCountL ((if n < 0 then ['-'] else []) ++ natDigits n.natAbs) = 0
  refine fracDigitCountL_no_dot _ ?_
  intro hmem
  rcases List.mem_append.mp hmem with h | h
  · split at h <;> simp_all
  · exact dot_not_mem_natDigits _ h

theorem fracDigitCount_jsToFixed_zero (x : ℚ) : fracDigitCount (jsToFixed 0 x) = 0 :=
  fracDigitCount_jsToFixedInt_zero _

theorem jsToFixed_eq_of_floor (f : ℕ) (x : ℚ) (n : ℤ) (h : ⌊x * 10 ^ f + 1 / 2⌋ = n) :
    jsToFixed f x = jsToFixedInt f n := by
  unfold jsToFixed
  rw [h]

theorem qOrZero_eq (x : ℚ) : qOrZero x = x := by
  unfold qOrZero; split <;> simp_all

theorem jsParseFloat_amount120 : jsParseFloat "120" = some 120 := by
  rw [show jsParseFloat "120"
      = some (1 * ((natOfDigits ['1', '2', '0'] : ℚ) + (natOfDigits [] : ℚ) / 10 ^ (0 : ℕ)))
    from rfl]
  rw [show natOfDigits ['1', '2', '0'] = 120 from by decide,
    show natOfDigits [] = 0 from rfl]
  norm_num

/-- C1 (code-bug evidence): evaluated at balance +36, the first
`GroupBalances.tsx` variant's `formatBalance` renders the text
`owes $36.00` for a net creditor, the opposite of the second variant and
of the legend that the very same component renders below the balance
cards ("Positive balance (Green): This person is owed money"); negative
and zero balances are likewise swapped in the first variant only. -/
theorem formatBalance_v1_labels_inverted :
    (formatBalance_v1 36).text = "owes $36.00"
  ∧ (formatBalance_v2 36).text = "is owed $36.00"
  ∧ (formatBalance_v1 (-36)).text = "is owed $36.00"
  ∧ (formatBalance_v2 (-36)).text = "owes $36.00"
  ∧ (formatBalance_v1 0).text = "is settled up"
  ∧ (formatBalance_v2 0).text = "is settled up"
  ∧ groupBalancesLegend.get? 0
      = some "Positive balance (Green): This person is owed money" := by
  have hfix : jsToFixed 2 (36 : ℚ) = "36.00" := by
    rw [jsToFixed_eq_of_floor 2 36 3600 (by norm_num)]
    decide
  refine ⟨?_, ?_, ?_, ?_, ?_, ?_, rfl⟩
  · unfold formatBalance_v1
    rw [if_pos (by norm_num : (36 : ℚ) > 0), abs_of_pos (by norm_num : (0 : ℚ) < 36)]
    show "owes $" ++ jsToFixed 2 36 = _
    rw [hfix]
    decide
  · unfold formatBalance_v2
    rw [if_pos (by norm_num : (36 : ℚ) > 0), abs_of_pos (by norm_num : (0 : ℚ) < 36)]
    show "is owed $" ++ jsToFixed 2 36 = _
    rw [hfix]
    decide
  · unfold formatBalance_v1
    rw [if_neg (by norm_num : ¬((-36 : ℚ) > 0)), if_pos (by norm_num : (-36 : ℚ) < 0),
      abs_of_neg (by norm_num : (-36 : ℚ) < 0)]
    show "is owed $" ++ jsToFixed 2 (- -36) = _
    norm_num [hfix]
    decide
  · unfold formatBalance_v2
    rw [if_neg (by norm_num : ¬((-36 : ℚ) > 0)), if_pos (by norm_num : (-36 : ℚ) < 0),
      abs_of_neg (by norm_num : (-36 : ℚ) < 0)]
    show "owes $" ++ jsToFixed 2 (- -36) = _
    norm_num [hfix]
    decide
  · unfold formatBalance_v1
    rw [if_neg (by norm_num : ¬((0 : ℚ) > 0)), if_neg (by norm_num : ¬((0 : ℚ) < 0))]
  · unfold formatBalance_v2
    rw [if_neg (by norm_num : ¬((0 : ℚ) > 0)), if_neg (by norm_num : ¬((0 : ℚ) < 0))]

/-- C8 (counterexample): the Dashboard's "Total Expenses" stat card
formats the aggregate of the groups' `total_expenses` with
`.toFixed(0)`: for a single group with total 120.50 it renders `121`,
which has 0 fractional digits, not 2. -/
theorem dashboardTotalExpenses_not_two_digits :
    dashboardTotalExpensesText [⟨1, "Trip", 2, 241/2⟩] = "121"
  ∧ fracDigitCount (dashboardTotalExpensesText [⟨1, "Trip", 2, 241/2⟩]) = 0 := by
  have h : dashboardAggregate [⟨1, "Trip", 2, 241/2⟩] = 241/2 := by
    simp [dashboardAggregate, qOrZero_eq]
  constructor
  · unfold dashboardTotalExpensesText
    rw [h, jsToFixed_eq_of_floor 0 (241/2) 121 (by norm_num)]
    decide
  · unfold dashboardTotalExpensesText
    exact fracDigitCount_jsToFixed_zero _

/-- C8 (amended): the Dashboard's "Total Amount" stat card renders the
aggregate of the groups' `total_expenses` with exactly 2 fractional
digits for every group list; the adjacent "Total Expenses" card renders
the same aggregate rounded to an integer (0 fractional digits). -/
theorem dashboardTotalAmount_two_digits (groups : List GroupSummary) :
    fracDigitCount (dashboardTotalAmountText groups) = 2
  ∧ fracDigitCount (dashboardTotalExpensesText groups) = 0 :=
  ⟨fracDigitCount_jsToFixed_two _, fracDigitCount_jsToFixed_zero _⟩

/-- C9 (counterexample): in `handleGroupIdChange` (the second and third
`AddExpense.tsx` variants) the divisor of the equal-percentage
computation is `group.users.length` with no guard, which is zero for a
group whose member list is empty. -/
theorem handleGroupIdChange_divisor_zero :
    handleGroupIdChange_divisor ⟨7, "Empty", [], 0⟩ = 0 := rfl

/-- C9 (amended): the guarded initializer `initializePercentageSplits`
(`group.users?.length || 1`) always has a nonzero divisor; the unguarded
`handleGroupIdChange` initializer's divisor equals the member count,
which is zero exactly for an empty member list, in which case the loop
body never runs and no split entry (hence no `Infinity` value) is
stored. -/
theorem percentage_init_divisors (group : Group) :
    initializePercentageSplits_divisor group ≠ 0
  ∧ (handleGroupIdChange_divisor group = 0 ↔ group.users = [])
  ∧ (group.users = [] → handleGroupIdChange_splits group = []) := by
  refine ⟨?_, ?_, ?_⟩
  · unfold initializePercentageSplits_divisor jsOrNat
    split <;> simp_all
  · unfold handleGroupIdChange_divisor
    simp [List.length_eq_zero]
  · intro h
    unfold handleGroupIdChange_splits
    rw [h]
    rfl

theorem percentage_init_divisors_witness :
    initializePercentageSplits_divisor ⟨7, "Empty", [], 0⟩ ≠ 0
  ∧ handleGroupIdChange_splits ⟨7, "Empty", [], 0⟩ = [] :=
  ⟨(percentage_init_divisors ⟨7, "Empty", [], 0⟩).1,
   (percentage_init_divisors ⟨7, "Empty", [], 0⟩).2.2 rfl⟩

theorem objSet_not_mem (m : List (ℤ × ℚ)) (k : ℤ) (v : ℚ)
    (h : ∀ e ∈ m, e.1 ≠ k) : objSet m k v = m ++ [(k, v)] := by
  unfold objSet
  rw [if_neg]
  simp only [List.any_eq_true, decide_eq_true_eq, not_exists, not_and]
  exact fun e he => h e he

theorem foldl_objSet_append (users : List User) (c : ℚ) (init : List (ℤ × ℚ))
    (hinit : ∀ u ∈ users, ∀ e ∈ init, e.1 ≠ u.id)
    (hnd : (users.map User.id).Nodup) :
    users.foldl (fun m u => objSet m u.id c) init
      = init ++ users.map (fun u => (u.id, c)) := by
  induction users generalizing init with
  | nil => simp
  | cons u us ih =>
    simp only [List.foldl_cons, List.map_cons]
    rw [objSet_not_mem _ _ _ (fun e he => hinit u (List.mem_cons_self _ _) e he)]
    rw [ih (init ++ [(u.id, c)])]
    · simp
    · intro v hv e he
      rcases List.mem_append.mp he with h | h
      · exact hinit v (List.mem_cons_of_mem _ hv) e h
      · have he2 : e = (u.id, c) := by simpa using h
        subst he2
        have hni : u.id ∉ us.map User.id :=
          (List.nodup_cons.mp (by simpa using hnd)).1
        intro hcontra
        have : u.id = v.id := hcontra
        exact hni (this ▸ List.mem_map_of_mem User.id hv)
    · exact (List.nodup_cons.mp (by simpa using hnd)).2

theorem initializePercentageSplits_eq (g : Group)
    (hnd : (g.users.map User.id).Nodup) :
    initializePercentageSplits g
      = g.users.map (fun u => (u.id, 100 / (initializePercentageSplits_divisor g : ℚ))) := by
  unfold initializePercentageSplits
  rw [foldl_objSet_append _ _ _ (by simp) hnd]
  simp

theorem objGet_map_const (users : List User) (c : ℚ) (u : User) (hu : u ∈ users) :
    objGet (users.map (fun v => (v.id, c))) u.id = some c := by
  induction users with
  | nil => cases hu
  | cons v vs ih =>
    by_cases hv : v.id = u.id
    · unfold objGet
      simp [List.find?_cons_of_pos, hv]
    · rcases List.mem_cons.mp hu with h | h
      · exact absurd (h ▸ rfl) hv
      · unfold objGet at ih ⊢
        rw [List.map_cons, List.find?_cons_of_neg _ (by simpa using hv)]
        exact ih h

theorem foldl_add_eq_sum (l : List ℚ) (a : ℚ) :
    l.foldl (fun sum p => sum + p) a = a + l.sum := by
  induction l generalizing a with
  | nil => simp
  | cons x xs ih => simp [ih, add_assoc]

theorem getTotalPercentage_eq_sum (ps : List (ℤ × ℚ)) :
    getTotalPercentage ps = (ps.map Prod.snd).sum := by
  unfold getTotalPercentage
  rw [foldl_add_eq_sum, zero_add]

theorem getTotalPercentage_map_const (users : List User) (c : ℚ) :
    getTotalPercentage (users.map fun u => (u.id, c)) = users.length * c := by
  rw [getTotalPercentage_eq_sum, List.map_map]
  have : (Prod.snd ∘ fun u : User => (u.id, c)) = fun _ => c := rfl
  rw [this]
  simp [mul_comm]

/-- C10: for a group with `n ≥ 1` members (distinct ids), the default
percentage initialization assigns every member `100 / n`, and the total
of these defaults is exactly 100, so it passes the percentage-sum
validation `|total − 100| ≤ 0.01` and an untouched percentage form is
accepted. -/
theorem default_percentages_pass_validation (g : Group)
    (hne : g.users ≠ []) (hnd : (g.users.map User.id).Nodup) :
    (∀ u ∈ g.users, objGet (initializePercentageSplits g) u.id
        = some (100 / (g.users.length : ℚ)))
  ∧ getTotalPercentage (initializePercentageSplits g) = 100
  ∧ |getTotalPercentage (initializePercentageSplits g) - 100| ≤ 1/100 := by
  have hlen : g.users.length ≠ 0 := fun h => hne (List.length_eq_zero.mp h)
  have hdiv : initializePercentageSplits_divisor g = g.users.length := by
    unfold initializePercentageSplits_divisor jsOrNat
    simp [hlen]
  have hq : (g.users.length : ℚ) ≠ 0 := Nat.cast_ne_zero.mpr hlen
  have htot : getTotalPercentage (initializePercentageSplits g) = 100 := by
    rw [initializePercentageSplits_eq g hnd, hdiv, getTotalPercentage_map_const,
      mul_comm, div_mul_cancel₀ _ hq]
  refine ⟨?_, htot, ?_⟩
  · intro u hu
    rw [initializePercentageSplits_eq g hnd, hdiv]
    exact objGet_map_const _ _ _ hu
  · rw [htot]
    norm_num

theorem default_percentages_pass_validation_witness :
    (∀ u ∈ ([⟨1, "A", "a"⟩, ⟨2, "B", "b"⟩, ⟨3, "C", "c"⟩] : List User),
      objGet (initializePercentageSplits
        ⟨9, "G", [⟨1, "A", "a"⟩, ⟨2, "B", "b"⟩, ⟨3, "C", "c"⟩], 0⟩) u.id
        = some (100 / 3))
  ∧ |getTotalPercentage (initializePercentageSplits
      ⟨9, "G", [⟨1, "A", "a"⟩, ⟨2, "B", "b"⟩, ⟨3, "C", "c"⟩], 0⟩) - 100| ≤ 1/100 := by
  have h := default_percentages_pass_validation
    ⟨9, "G", [⟨1, "A", "a"⟩, ⟨2, "B", "b"⟩, ⟨3, "C", "c"⟩], 0⟩
    (by decide) (by decide)
  refine ⟨?_, h.2.2⟩
  intro u hu
  have := h.1 u hu
  simpa using this

theorem handleSubmit_request_char (st : AddExpenseForm) (g : Group) (a : ℚ)
    (hg : st.selectedGroup = some g)
    (hd : jsTrim st.description ≠ "") (ha : st.amount ≠ "") (hp : st.paidBy ≠ "")
    (hparse : jsParseFloat st.amount = some a) (hpos : 0 < a)
    (hperc : st.splitType = .percentage →
      |getTotalPercentage st.percentageSplits - 100| ≤ 1/100) :
    handleSubmit st = .request g.id
      { description := jsTrim st.description
        amount := a
        paid_by := jsParseInt st.paidBy
        split_type := st.splitType
        splits :=
          if st.splitType = .percentage then
            some (g.users.map fun user =>
              { user_id := user.id
                percentage := jsOrElseZero (objGet st.percentageSplits user.id) })
          else none } := by
  unfold handleSubmit
  rw [hg]
  simp only []
  rw [if_neg (by simp [hd, ha, hp])]
  rw [hparse]
  simp only []
  rw [if_neg (not_le.mpr hpos)]
  rw [if_neg]
  intro ⟨hsplit, hgt⟩
  exact absurd (hperc hsplit) (not_le.mpr hgt)

/-- C2: with the other required fields present and a positive parsed
amount, a percentage-split submission is rejected with a validation
error (and no request issued) exactly when the absolute difference
between the summed percentages and 100 exceeds 0.01; the boundary
instances 99.98 / 100.02 rejected and 99.99 / 100.00 / 100.01 accepted
are checked in the witness. -/
theorem percentage_sum_validation (st : AddExpenseForm) (g : Group) (a : ℚ)
    (hg : st.selectedGroup = some g)
    (hd : jsTrim st.description ≠ "") (ha : st.amount ≠ "") (hp : st.paidBy ≠ "")
    (hparse : jsParseFloat st.amount = some a) (hpos : 0 < a)
    (hsplit : st.splitType = .percentage) :
    (∃ msg, handleSubmit st = .error msg) ↔
      |getTotalPercentage st.percentageSplits - 100| > 1/100 := by
  constructor
  · rintro ⟨msg, hmsg⟩
    by_contra hle
    rw [handleSubmit_request_char st g a hg hd ha hp hparse hpos
      (fun _ => not_lt.mp hle)] at hmsg
    cases hmsg
  · intro hgt
    refine ⟨"Percentages must sum to 100% (currently "
      ++ jsToFixed 1 (getTotalPercentage st.percentageSplits) ++ "%)", ?_⟩
    unfold handleSubmit
    rw [hg]
    simp only []
    rw [if_neg (by simp [hd, ha, hp])]
    rw [hparse]
    simp only []
    rw [if_neg (not_le.mpr hpos)]
    rw [if_pos ⟨hsplit, hgt⟩]

theorem percentage_sum_validation_witness :
    (∃ msg, handleSubmit (percentState 50 (4998/100)) = .error msg)
  ∧ (∃ msg, handleSubmit (percentState 50 (5002/100)) = .error msg)
  ∧ ¬(∃ msg, handleSubmit (percentState 50 (4999/100)) = .error msg)
  ∧ ¬(∃ msg, handleSubmit (percentState 50 50) = .error msg)
  ∧ ¬(∃ msg, handleSubmit (percentState 50 (5001/100)) = .error msg) := by
  have hiff : ∀ p2 : ℚ,
      (∃ msg, handleSubmit (percentState 50 p2) = .error msg) ↔
        |getTotalPercentage (percentState 50 p2).percentageSplits - 100| > 1/100 := by
    intro p2
    exact percentage_sum_validation _ _ 120 rfl
      (show jsTrim "dinner" ≠ "" by decide)
      (show "120" ≠ "" by decide)
      (show "1" ≠ "" by decide)
      jsParseFloat_amount120 (by norm_num) rfl
  have htot : ∀ p2 : ℚ,
      getTotalPercentage (percentState 50 p2).percentageSplits = 50 + p2 := by
    intro p2
    show getTotalPercentage [(1, (50 : ℚ)), (2, p2)] = 50 + p2
    rw [getTotalPercentage_eq_sum]
    simp
  refine ⟨(hiff _).mpr ?_, (hiff _).mpr ?_, fun h => absurd ((hiff _).mp h) ?_,
    fun h => absurd ((hiff _).mp h) ?_, fun h => absurd ((hiff _).mp h) ?_⟩
  · rw [htot, show (50 : ℚ) + 4998/100 - 100 = -(2/100) from by norm_num, abs_neg,
      abs_of_pos (by norm_num : (0 : ℚ) < 2/100)]
    norm_num
  · rw [htot, show (50 : ℚ) + 5002/100 - 100 = 2/100 from by norm_num,
      abs_of_pos (by norm_num : (0 : ℚ) < 2/100)]
    norm_num
  · rw [htot, not_lt, abs_le]
    constructor <;> norm_num
  · rw [htot, not_lt, abs_le]
    constructor <;> norm_num
  · rw [htot, not_lt, abs_le]
    constructor <;> norm_num

/-- C6: whenever the amount input parses to `NaN` or to a value ≤ 0 the
submission ends in a validation error message and no expense-creation
request is issued (the recorded state is unchanged), while for a
positive parsed amount — with the other required fields present and
percentage validation passing — the creation request is issued. -/
theorem amount_validation :
    (∀ st : AddExpenseForm,
      (jsParseFloat st.amount = none ∨ ∃ a, jsParseFloat st.amount = some a ∧ a ≤ 0) →
      ∃ msg, handleSubmit st = .error msg)
  ∧ (∀ (st : AddExpenseForm) (g : Group) (a : ℚ),
      st.selectedGroup = some g → jsTrim st.description ≠ "" →
      st.amount ≠ "" → st.paidBy ≠ "" →
      jsParseFloat st.amount = some a → 0 < a →
      (st.splitType = .percentage →
        |getTotalPercentage st.percentageSplits - 100| ≤ 1/100) →
      ∃ gid expense, handleSubmit st = .request gid expense) := by
  constructor
  · intro st h
    unfold handleSubmit
    cases hsel : st.selectedGroup with
    | none => exact ⟨_, rfl⟩
    | some g =>
      simp only []
      split
      · exact ⟨_, rfl⟩
      · rcases h with hnone | ⟨a, hsome, hle⟩
        · rw [hnone]
          exact ⟨_, rfl⟩
        · rw [hsome]
          simp only []
          rw [if_pos hle]
          exact ⟨_, rfl⟩
  · intro st g a hg hd ha hp hparse hpos hperc
    exact ⟨g.id, _, handleSubmit_request_char st g a hg hd ha hp hparse hpos hperc⟩

theorem amount_validation_witness :
    (∃ msg, handleSubmit ⟨some ⟨5, "Trip", [⟨1, "Alice", "alice@x.io"⟩], 0⟩,
        "dinner", "abc", "1", .equal, []⟩ = .error msg)
  ∧ (∃ msg, handleSubmit ⟨some ⟨5, "Trip", [⟨1, "Alice", "alice@x.io"⟩], 0⟩,
        "dinner", "-5", "1", .equal, []⟩ = .error msg)
  ∧ (∃ msg, handleSubmit ⟨some ⟨5, "Trip", [⟨1, "Alice", "alice@x.io"⟩], 0⟩,
        "dinner", "0", "1", .equal, []⟩ = .error msg)
  ∧ (∃ gid expense, handleSubmit ⟨some ⟨5, "Trip", [⟨1, "Alice", "alice@x.io"⟩], 0⟩,
        "dinner", "120", "1", .equal, []⟩ = .request gid expense) := by
  have hnan : jsParseFloat "abc" = none := by decide
  have hneg : jsParseFloat "-5" = some (-1 * ((5 : ℚ) + 0 / 10 ^ (0 : ℕ))) := rfl
  have hzero : jsParseFloat "0" = some (1 * ((0 : ℚ) + 0 / 10 ^ (0 : ℕ))) := rfl
  refine ⟨amount_validation.1 _ (Or.inl hnan),
    amount_validation.1 _ (Or.inr ⟨_, hneg, by norm_num⟩),
    amount_validation.1 _ (Or.inr ⟨_, hzero, by norm_num⟩),
    amount_validation.2 _ _ 120 rfl (by decide) (by decide) (by decide)
      jsParseFloat_amount120 (by norm_num) ?_⟩
  intro h
  cases h

/-- C7: for every percentage-split submission that passes validation,
the splits payload sent with the request contains exactly one entry per
member of the selected group, in member-list order, whose percentage is
the value entered for that member (0 when none was entered). -/
theorem percentage_splits_payload (st : AddExpenseForm) (g : Group) (a : ℚ)
    (hg : st.selectedGroup = some g)
    (hd : jsTrim st.description ≠ "") (ha : st.amount ≠ "") (hp : st.paidBy ≠ "")
    (hparse : jsParseFloat st.amount = some a) (hpos : 0 < a)
    (hsplit : st.splitType = .percentage)
    (htot : |getTotalPercentage st.percentageSplits - 100| ≤ 1/100) :
    ∃ expense, handleSubmit st = .request g.id expense
      ∧ expense.splits = some (g.users.map fun u =>
          { user_id := u.id
            percentage := (objGet st.percentageSplits u.id).getD 0 })
      ∧ (expense.splits.getD []).map ExpenseSplitInput.user_id = g.users.map User.id := by
  refine ⟨_, handleSubmit_request_char st g a hg hd ha hp hparse hpos (fun _ => htot),
    ?_, ?_⟩
  · dsimp only
    rw [if_pos hsplit]
    congr 1
    apply List.map_congr_left
    intro u _
    rw [jsOrElseZero_eq_getD]
  · dsimp only
    rw [if_pos hsplit]
    simp only [Option.getD_some, List.map_map]
    rfl

theorem percentage_splits_payload_witness :
    ∃ expense, handleSubmit (percentState 30 70) = .request 5 expense
      ∧ expense.splits = some
          [{ user_id := 1, percentage := 30 }, { user_id := 2, percentage := 70 }]
      ∧ (expense.splits.getD []).map ExpenseSplitInput.user_id = [1, 2] := by
  have htotal : getTotalPercentage (percentState 30 70).percentageSplits = 100 := by
    show getTotalPercentage [(1, (30 : ℚ)), (2, 70)] = 100
    rw [getTotalPercentage_eq_sum]
    norm_num
  obtain ⟨e, h1, h2, h3⟩ := percentage_splits_payload (percentState 30 70) _ 120 rfl
    (by decide) (by decide) (by decide) jsParseFloat_amount120 (by norm_num) rfl
    (by rw [htotal]; norm_num)
  exact ⟨e, h1, by rw [h2]; rfl, by rw [h3]; rfl⟩

theorem modifyIdx_map_snd_sum (l : List (ℤ × ℤ)) (i : ℕ) (d : ℤ) (h : i < l.length) :
    ((modifyIdx l i (fun v => v + d)).map Prod.snd).sum
      = (l.map Prod.snd).sum + d := by
  induction l generalizing i with
  | nil => simp at h
  | cons e tl ih =>
    cases i with
    | zero =>
      simp only [modifyIdx, List.map_cons, List.sum_cons]
      ring
    | succ n =>
      simp only [modifyIdx, List.map_cons, List.sum_cons]
      rw [ih n (by simpa using h)]
      ring

theorem foldl_max_attained (l : List (ℤ × ℚ)) (a : ℚ) :
    l.foldl (fun acc p => max acc p.2) a = a ∨
      ∃ p ∈ l, l.foldl (fun acc p => max acc p.2) a = p.2 := by
  induction l generalizing a with
  | nil => exact Or.inl rfl
  | cons x xs ih =>
    simp only [List.foldl_cons]
    rcases ih (max a x.2) with h | ⟨p, hp, heq⟩
    · rw [h]
      rcases max_choice a x.2 with h2 | h2
      · exact Or.inl h2
      · exact Or.inr ⟨x, List.mem_cons_self _ _, h2⟩
    · exact Or.inr ⟨p, List.mem_cons_of_mem _ hp, heq⟩

theorem argmaxIdx_lt (ps : List (ℤ × ℚ)) (h : ps ≠ []) :
    argmaxIdx ps < ps.length := by
  cases ps with
  | nil => exact absurd rfl h
  | cons e tl =>
    simp only [argmaxIdx]
    apply List.findIdx_lt_length_of_exists
    rcases foldl_max_attained (e :: tl) e.2 with h1 | ⟨p, hp, heq⟩
    · exact ⟨e, List.mem_cons_self _ _, by simp [h1]⟩
    · exact ⟨p, hp, by simp [heq]⟩

theorem computeSplitsEqual_sum (amount : ℤ) (participants : List ℤ)
    (h : participants ≠ []) :
    ((computeSplitsEqual amount participants).map Prod.snd).sum = amount := by
  simp only [computeSplitsEqual]
  cases hs : participants.insertionSort (· ≤ ·) with
  | nil =>
    exfalso
    have hl := List.length_insertionSort (· ≤ ·) participants
    rw [hs] at hl
    exact h (List.length_eq_zero.mp hl.symm)
  | cons p rest =>
    have hlen : (participants.length : ℤ) = (rest.length : ℤ) + 1 := by
      have hl := List.length_insertionSort (· ≤ ·) participants
      rw [hs] at hl
      simp only [List.length_cons] at hl
      omega
    simp only [List.map_cons, List.sum_cons, List.map_map]
    have hconst : (rest.map (Prod.snd ∘ fun u : ℤ => (u,
        roundHalfEven ((amount : ℚ) / (participants.length : ℚ))))).sum
        = (rest.length : ℤ) * roundHalfEven ((amount : ℚ) / (participants.length : ℚ)) := by
      have hfun : (Prod.snd ∘ fun u : ℤ =>
          (u, roundHalfEven ((amount : ℚ) / (participants.length : ℚ))))
          = fun _ => roundHalfEven ((amount : ℚ) / (participants.length : ℚ)) := rfl
      rw [hfun]
      simp [mul_comm]
    rw [hconst]
    set b := roundHalfEven ((amount : ℚ) / (participants.length : ℚ)) with hb
    rw [hlen]
    ring

theorem computeSplitsPercentage_sum (amount : ℤ) (ps : List (ℤ × ℚ)) (h : ps ≠ []) :
    ((computeSplitsPercentage amount ps).map Prod.snd).sum = amount := by
  simp only [computeSplitsPercentage]
  have hsorted : ps.insertionSort (fun a b => a.1 ≤ b.1) ≠ [] := by
    intro hs
    have hl := List.length_insertionSort (fun a b => a.1 ≤ b.1) ps
    rw [hs] at hl
    exact h (List.length_eq_zero.mp hl.symm)
  have hidx : argmaxIdx (ps.insertionSort (fun a b => a.1 ≤ b.1))
      < ((ps.insertionSort (fun a b => a.1 ≤ b.1)).map
          (fun p => (p.1, roundHalfEven ((amount : ℚ) * p.2 / 100)))).length := by
    rw [List.length_map]
    exact argmaxIdx_lt _ hsorted
  rw [modifyIdx_map_snd_sum _ _ _ hidx]
  ring

theorem sameParticipantSet_nonempty (participants keys : List ℤ)
    (h : sameParticipantSet participants keys = true) (hne : participants ≠ []) :
    keys ≠ [] := by
  cases participants with
  | nil => exact absurd rfl hne
  | cons p tl =>
    intro hk
    subst hk
    unfold sameParticipantSet at h
    simp at h

/-- C3: for every valid input accepted by the Split Calculator (positive
amount, non-empty participants, valid percentage mapping where
applicable) the per-participant split amounts sum exactly to the expense
amount, for both the equal and the percentage policy; in particular a
120.00 expense split equally between 2 participants yields 60.00 per
split. -/
theorem split_exactness :
    (∀ (amount : ℤ) (policy : SplitType) (participants : List ℤ)
      (percentages : List (ℤ × ℚ)) (splits : List (ℤ × ℤ)),
      computeSplits amount policy participants percentages = .ok splits →
      (splits.map Prod.snd).sum = amount)
  ∧ computeSplits 12000 .equal [1, 2] [] = .ok [(1, 6000), (2, 6000)] := by
  constructor
  · intro amount policy participants percentages splits hok
    unfold computeSplits at hok
    split at hok
    · cases hok
    · split at hok
      · cases hok
      · rename_i hne hpos
        have hpart : participants ≠ [] := by
          intro hnil
          subst hnil
          exact hne rfl
        cases policy with
        | equal =>
          simp only [] at hok
          injection hok with hok
          subst hok
          exact computeSplitsEqual_sum amount participants hpart
        | percentage =>
          simp only [] at hok
          split at hok
          · cases hok
          · split at hok
            · cases hok
            · rename_i hset hsum
              injection hok with hok
              subst hok
              apply computeSplitsPercentage_sum
              intro hnil
              have hkeys : percentages.map Prod.fst ≠ [] :=
                sameParticipantSet_nonempty participants _ (not_not.mp hset) hpart
              exact hkeys (by rw [hnil]; rfl)
  · unfold computeSplits
    rw [if_neg (by decide), if_neg (by decide)]
    simp only [computeSplitsEqual]
    rw [show ([1, 2] : List ℤ).insertionSort (· ≤ ·) = [1, 2] from by decide]
    simp only []
    rw [show roundHalfEven ((12000 : ℤ) / (([1, 2] : List ℤ).length : ℚ)) = 6000 from by
      norm_num [roundHalfEven]]
    norm_num

theorem split_exactness_witness :
    (([(1, 334), (2, 333), (3, 333)] : List (ℤ × ℤ)).map Prod.snd).sum = 1000
  ∧ computeSplits 1000 .equal [1, 2, 3] [] = .ok [(1, 334), (2, 333), (3, 333)] := by
  have hok : computeSplits 1000 .equal [1, 2, 3] []
      = .ok [(1, 334), (2, 333), (3, 333)] := by
    unfold computeSplits
    rw [if_neg (by decide), if_neg (by decide)]
    simp only [computeSplitsEqual]
    rw [show ([1, 2, 3] : List ℤ).insertionSort (· ≤ ·) = [1, 2, 3] from by decide]
    simp only []
    rw [show roundHalfEven ((1000 : ℤ) / (([1, 2, 3] : List ℤ).length : ℚ)) = 333 from by
      norm_num [roundHalfEven]]
    norm_num
  exact ⟨split_exactness.1 1000 .equal [1, 2, 3] [] _ hok, hok⟩

theorem sum_map_ite_mem (members : List ℤ) (c : ℤ) (x : ℤ)
    (hm : c ∈ members) (hnd : members.Nodup) :
    (members.map fun u => if c = u then x else 0).sum = x := by
  induction members with
  | nil => cases hm
  | cons m ms ih =>
    rcases List.mem_cons.mp hm with h | h
    · subst h
      have hnotin : c ∉ ms := (List.nodup_cons.mp hnd).1
      have hzero : (ms.map fun u => if c = u then x else 0).sum = 0 := by
        apply List.sum_eq_zero
        intro y hy
        rcases List.mem_map.mp hy with ⟨u, hu, hyu⟩
        rw [← hyu, if_neg]
        intro hc
        subst hc
        exact hnotin hu
      simp only [List.map_cons, List.sum_cons]
      rw [hzero, add_zero, if_pos trivial]
    · have hne : c ≠ m := by
        intro hc
        subst hc
        exact (List.nodup_cons.mp hnd).1 h
      simp only [List.map_cons, List.sum_cons]
      rw [if_neg hne, ih h (List.nodup_cons.mp hnd).2, zero_add]

theorem sum_map_swap {α β : Type} (xs : List α) (ys : List β) (f : α → β → ℤ) :
    (xs.map fun x => (ys.map fun y => f x y).sum).sum
      = (ys.map fun y => (xs.map fun x => f x y).sum).sum := by
  induction xs with
  | nil =>
    simp only [List.map_nil, List.sum_nil]
    symm
    apply List.sum_eq_zero
    intro y hy
    rcases List.mem_map.mp hy with ⟨u, _, hyu⟩
    simpa using hyu.symm
  | cons x xs ih =>
    simp only [List.map_cons, List.sum_cons, ih]
    exact (List.sum_map_add).symm

theorem sum_map_sub_int {α : Type} (l : List α) (f g : α → ℤ) :
    (l.map fun x => f x - g x).sum = (l.map f).sum - (l.map g).sum := by
  induction l with
  | nil => simp
  | cons x xs ih =>
    simp only [List.map_cons, List.sum_cons, ih]
    ring

theorem paid_sum (members : List ℤ) (es : List Expense)
    (hnd : members.Nodup) (hpay : ∀ e ∈ es, e.paid_by ∈ members) :
    (members.map fun u => paidTotal es u).sum = (es.map Expense.amount).sum := by
  unfold paidTotal
  rw [sum_map_swap]
  congr 1
  apply List.map_congr_left
  intro e he
  exact sum_map_ite_mem members e.paid_by e.amount (hpay e he) hnd

theorem owes_sum (members : List ℤ) (es : List Expense)
    (hnd : members.Nodup)
    (hsplitsum : ∀ e ∈ es, (e.splits.map Prod.snd).sum = e.amount)
    (hsplitmem : ∀ e ∈ es, ∀ s ∈ e.splits, s.1 ∈ members) :
    (members.map fun u => owesTotal es u).sum = (es.map Expense.amount).sum := by
  unfold owesTotal
  rw [sum_map_swap]
  congr 1
  apply List.map_congr_left
  intro e he
  rw [sum_map_swap]
  have hinner : ∀ s ∈ e.splits,
      (members.map fun u => if s.1 = u then s.2 else 0).sum = s.2 :=
    fun s hs => sum_map_ite_mem members s.1 s.2 (hsplitmem e he s hs) hnd
  rw [List.map_congr_left hinner]
  exact hsplitsum e he

/-- C4: for any set of expenses whose splits sum to their amounts, whose
payers are members and whose split users are members (all guaranteed at
creation time), the net balances returned by the group-balances query
sum to exactly zero — each member's balance being total paid minus total
owed; the spec's example (120.00 equal split paid by member 1, 80.00
30/70 percentage split paid by member 2, giving +36.00/−36.00) is
checked in the witness. -/
theorem balance_conservation (members : List ℤ) (expenses : List Expense)
    (hnd : members.Nodup)
    (hpay : ∀ e ∈ expenses, e.paid_by ∈ members)
    (hsplitsum : ∀ e ∈ expenses, (e.splits.map Prod.snd).sum = e.amount)
    (hsplitmem : ∀ e ∈ expenses, ∀ s ∈ e.splits, s.1 ∈ members) :
    ((computeGroupBalances members expenses).map Prod.snd).sum = 0 := by
  unfold computeGroupBalances
  rw [List.map_map]
  have hfun : (Prod.snd ∘ fun u : ℤ => (u, paidTotal expenses u - owesTotal expenses u))
      = fun u => paidTotal expenses u - owesTotal expenses u := rfl
  rw [hfun, sum_map_sub_int, paid_sum members expenses hnd hpay,
    owes_sum members expenses hnd hsplitsum hsplitmem, sub_self]

theorem balance_conservation_witness :
    computeGroupBalances [1, 2]
      [⟨1, 12000, [(1, 6000), (2, 6000)]⟩, ⟨2, 8000, [(1, 2400), (2, 5600)]⟩]
      = [(1, 3600), (2, -3600)]
  ∧ ((computeGroupBalances [1, 2]
      [⟨1, 12000, [(1, 6000), (2, 6000)]⟩, ⟨2, 8000, [(1, 2400), (2, 5600)]⟩]).map
        Prod.snd).sum = 0 :=
  ⟨by decide,
   balance_conservation [1, 2]
     [⟨1, 12000, [(1, 6000), (2, 6000)]⟩, ⟨2, 8000, [(1, 2400), (2, 5600)]⟩]
     (by decide) (by decide) (by decide) (by decide)⟩

theorem lbal_nil (u : ℤ) : lbal [] u = 0 := rfl

theorem lbal_cons (e : ℤ × ℤ) (tl : List (ℤ × ℤ)) (u : ℤ) :
    lbal (e :: tl) u = (if e.1 = u then e.2 else 0) + lbal tl u := by
  unfold lbal
  by_cases h : e.1 = u
  · rw [List.filter_cons_of_pos (by simpa using h), if_pos h]
    simp
  · rw [List.filter_cons_of_neg (by simpa using h), if_neg h]
    simp

theorem lbal_zero_of_not_mem (l : List (ℤ × ℤ)) (u : ℤ) (h : u ∉ l.map Prod.fst) :
    lbal l u = 0 := by
  induction l with
  | nil => rfl
  | cons e tl ih =>
    rw [lbal_cons, ih (fun hm => h (by simp only [List.map_cons]; exact List.mem_cons_of_mem _ hm)),
      add_zero, if_neg]
    intro hk
    apply h
    simp only [List.map_cons]
    rw [hk]
    exact List.mem_cons_self _ _

theorem lbal_eq_of_mem (l : List (ℤ × ℤ)) (k w : ℤ)
    (hnd : (l.map Prod.fst).Nodup) (hmem : (k, w) ∈ l) : lbal l k = w := by
  induction l with
  | nil => cases hmem
  | cons e tl ih =>
    have hnd' : (tl.map Prod.fst).Nodup := (List.nodup_cons.mp (by simpa using hnd)).2
    have hhead : e.1 ∉ tl.map Prod.fst := (List.nodup_cons.mp (by simpa using hnd)).1
    rcases List.mem_cons.mp hmem with h | h
    · rw [← h, lbal_cons]
      simp only []
      rw [if_pos trivial, lbal_zero_of_not_mem tl k (by rw [← h] at hhead; exact hhead), add_zero]
    · have hek : e.1 ≠ k := by
        intro hc
        apply hhead
        rw [hc]
        exact List.mem_map_of_mem Prod.fst h
      rw [lbal_cons, if_neg hek, ih hnd' h, zero_add]

/-! Facts about `pickDebtor` / `pickCreditor`: the picked entry is a
member, and picking fails exactly on the empty list. -/

theorem foldl_mem_or (l : List (ℤ × ℤ)) (f : ℤ × ℤ → ℤ × ℤ → ℤ × ℤ)
    (hf : ∀ b x, f b x = b ∨ f b x = x) (b : ℤ × ℤ) :
    l.foldl f b = b ∨ l.foldl f b ∈ l := by
  induction l generalizing b with
  | nil => exact Or.inl rfl
  | cons x xs ih =>
    simp only [List.foldl_cons]
    rcases ih (f b x) with h | h
    · rcases hf b x with h2 | h2
      · exact Or.inl (by rw [h, h2])
      · exact Or.inr (by rw [h, h2]; exact List.mem_cons_self _ _)
    · exact Or.inr (List.mem_cons_of_mem _ h)

theorem pickDebtor_mem (l : List (ℤ × ℤ)) (e : ℤ × ℤ) (h : pickDebtor l = some e) :
    e ∈ l := by
  cases l with
  | nil => cases h
  | cons x xs =>
    unfold pickDebtor at h
    injection h with h
    rcases foldl_mem_or xs
        (fun best x => if x.2 < best.2 ∨ (x.2 = best.2 ∧ x.1 < best.1) then x else best)
        (fun b y => by
          by_cases hc : y.2 < b.2 ∨ (y.2 = b.2 ∧ y.1 < b.1)
          · exact Or.inr (if_pos hc)
          · exact Or.inl (if_neg hc)) x with h2 | h2
    · rw [← h, h2]
      exact List.mem_cons_self _ _
    · rw [← h]
      exact List.mem_cons_of_mem _ h2

theorem pickCreditor_mem (l : List (ℤ × ℤ)) (e : ℤ × ℤ) (h : pickCreditor l = some e) :
    e ∈ l := by
  cases l with
  | nil => cases h
  | cons x xs =>
    unfold pickCreditor at h
    injection h with h
    rcases foldl_mem_or xs
        (fun best x => if best.2 < x.2 ∨ (x.2 = best.2 ∧ x.1 < best.1) then x else best)
        (fun b y => by
          by_cases hc : b.2 < y.2 ∨ (y.2 = b.2 ∧ y.1 < b.1)
          · exact Or.inr (if_pos hc)
          · exact Or.inl (if_neg hc)) x with h2 | h2
    · rw [← h, h2]
      exact List.mem_cons_self _ _
    · rw [← h]
      exact List.mem_cons_of_mem _ h2

/-! Facts about `updateOrRemove`. -/

theorem updateOrRemove_mem (l : List (ℤ × ℤ)) (k v : ℤ) (e : ℤ × ℤ)
    (h : e ∈ updateOrRemove l k v) : e ∈ l ∨ (e = (k, v) ∧ v ≠ 0) := by
  unfold updateOrRemove at h
  split at h
  · exact Or.inl (List.mem_of_mem_filter h)
  · rename_i hv
    rcases List.mem_map.mp h with ⟨x, hx, heq⟩
    by_cases hc : x.1 = k
    · rw [if_pos hc] at heq
      exact Or.inr ⟨heq.symm, hv⟩
    · rw [if_neg hc] at heq
      exact Or.inl (heq ▸ hx)

theorem updateOrRemove_keys_sublist (l : List (ℤ × ℤ)) (k v : ℤ) :
    ((updateOrRemove l k v).map Prod.fst).Sublist (l.map Prod.fst) := by
  unfold updateOrRemove
  split
  · exact List.Sublist.map _ (List.filter_sublist l)
  · have hkeys : (l.map (fun e => if e.1 = k then (k, v) else e)).map Prod.fst
        = l.map Prod.fst := by
      rw [List.map_map]
      apply List.map_congr_left
      intro e _
      by_cases h : e.1 = k
      · simp [h]
      · simp [h]
    rw [hkeys]

theorem updateOrRemove_length_le (l : List (ℤ × ℤ)) (k v : ℤ) :
    (updateOrRemove l k v).length ≤ l.length := by
  unfold updateOrRemove
  split
  · exact List.length_filter_le _ _
  · rw [List.length_map]

theorem updateOrRemove_length_lt (l : List (ℤ × ℤ)) (k : ℤ) (w : ℤ)
    (hmem : (k, w) ∈ l) :
    (updateOrRemove l k 0).length < l.length := by
  unfold updateOrRemove
  rw [if_pos rfl]
  apply List.length_filter_lt_length_iff_exists.mpr
  exact ⟨(k, w), hmem, by simp⟩

theorem lbal_updateOrRemove_ne (l : List (ℤ × ℤ)) (k v u : ℤ) (hne : u ≠ k) :
    lbal (updateOrRemove l k v) u = lbal l u := by
  unfold updateOrRemove
  split
  · induction l with
    | nil => rfl
    | cons e tl ih =>
      by_cases hk : e.1 = k
      · rw [List.filter_cons_of_neg (by simpa using hk), ih, lbal_cons, if_neg, zero_add]
        intro h
        exact hne (by rw [← h, hk])
      · rw [List.filter_cons_of_pos (by simpa using hk), lbal_cons, lbal_cons, ih]
  · induction l with
    | nil => rfl
    | cons e tl ih =>
      simp only [List.map_cons]
      rw [lbal_cons, lbal_cons, ih]
      congr 1
      by_cases hk : e.1 = k
      · rw [if_pos hk, if_neg (fun h : k = u => hne h.symm), if_neg]
        intro h
        exact hne (by rw [← h, hk])
      · rw [if_neg hk]

theorem lbal_filter_out_key (l : List (ℤ × ℤ)) (k : ℤ) :
    lbal (l.filter fun e => ¬ e.1 = k) k = 0 := by
  induction l with
  | nil => rfl
  | cons e tl ih =>
    by_cases hk : e.1 = k
    · rw [List.filter_cons_of_neg (by simpa using hk), ih]
    · rw [List.filter_cons_of_pos (by simpa using hk), lbal_cons, if_neg hk, ih, add_zero]

theorem mapUpdate_eq_of_not_mem (l : List (ℤ × ℤ)) (k v : ℤ)
    (h : k ∉ l.map Prod.fst) :
    l.map (fun e => if e.1 = k then (k, v) else e) = l := by
  induction l with
  | nil => rfl
  | cons e tl ih =>
    simp only [List.map_cons]
    rw [if_neg, ih (fun hm => h (by simp only [List.map_cons]; exact List.mem_cons_of_mem _ hm))]
    intro hk
    apply h
    simp only [List.map_cons]
    rw [hk]
    exact List.mem_cons_self _ _

theorem lbal_updateOrRemove_eq (l : List (ℤ × ℤ)) (k w v : ℤ)
    (hnd : (l.map Prod.fst).Nodup) (hmem : (k, w) ∈ l) :
    lbal (updateOrRemove l k v) k = v := by
  unfold updateOrRemove
  split
  · rename_i hv
    rw [lbal_filter_out_key, hv]
  · induction l with
    | nil => cases hmem
    | cons e tl ih =>
      have hnd' : (tl.map Prod.fst).Nodup := (List.nodup_cons.mp (by simpa using hnd)).2
      have hhead : e.1 ∉ tl.map Prod.fst := (List.nodup_cons.mp (by simpa using hnd)).1
      rcases List.mem_cons.mp hmem with h | h
      · have hek : e.1 = k := by rw [← h]
        simp only [List.map_cons]
        rw [if_pos hek, lbal_cons]
        simp only []
        rw [if_pos trivial]
        rw [mapUpdate_eq_of_not_mem tl k v (by rw [← hek]; exact hhead)]
        rw [lbal_zero_of_not_mem tl k (by rw [← hek]; exact hhead), add_zero]
      · have hek : e.1 ≠ k := by
          intro hc
          apply hhead
          rw [hc]
          exact List.mem_map_of_mem Prod.fst h
        simp only [List.map_cons]
        rw [if_neg hek, lbal_cons, if_neg hek, ih hnd' h, zero_add]

theorem sum_filter_out_key (l : List (ℤ × ℤ)) (k w : ℤ)
    (hnd : (l.map Prod.fst).Nodup) (hmem : (k, w) ∈ l) :
    ((l.filter fun e => ¬ e.1 = k).map Prod.snd).sum = (l.map Prod.snd).sum - w := by
  induction l with
  | nil => cases hmem
  | cons e tl ih =>
    have hnd' : (tl.map Prod.fst).Nodup := (List.nodup_cons.mp (by simpa using hnd)).2
    have hhead : e.1 ∉ tl.map Prod.fst := (List.nodup_cons.mp (by simpa using hnd)).1
    rcases List.mem_cons.mp hmem with h | h
    · have hek : e.1 = k := by rw [← h]
      rw [List.filter_cons_of_neg (by simpa using hek)]
      have htl : tl.filter (fun e => ¬ e.1 = k) = tl := by
        apply List.filter_eq_self.mpr
        intro a ha
        simp only [decide_not, Bool.not_eq_true', decide_eq_false_iff_not]
        intro hc
        apply hhead
        rw [hek, ← hc]
        exact List.mem_map_of_mem Prod.fst ha
      rw [htl, ← h]
      simp only [List.map_cons, List.sum_cons]
      ring
    · have hek : e.1 ≠ k := by
        intro hc
        apply hhead
        rw [hc]
        exact List.mem_map_of_mem Prod.fst h
      rw [List.filter_cons_of_pos (by simpa using hek)]
      simp only [List.map_cons, List.sum_cons]
      rw [ih hnd' h]
      ring

theorem sum_mapUpdate_key (l : List (ℤ × ℤ)) (k w v : ℤ)
    (hnd : (l.map Prod.fst).Nodup) (hmem : (k, w) ∈ l) :
    ((l.map fun e => if e.1 = k then (k, v) else e).map Prod.snd).sum
      = (l.map Prod.snd).sum - w + v := by
  induction l with
  | nil => cases hmem
  | cons e tl ih =>
    have hnd' : (tl.map Prod.fst).Nodup := (List.nodup_cons.mp (by simpa using hnd)).2
    have hhead : e.1 ∉ tl.map Prod.fst := (List.nodup_cons.mp (by simpa using hnd)).1
    rcases List.mem_cons.mp hmem with h | h
    · have hek : e.1 = k := by rw [← h]
      simp only [List.map_cons, List.sum_cons]
      rw [if_pos hek]
      rw [mapUpdate_eq_of_not_mem tl k v (by rw [← hek]; exact hhead), ← h]
      simp only [List.map_cons, List.sum_cons]
      ring
    · have hek : e.1 ≠ k := by
        intro hc
        apply hhead
        rw [hc]
        exact List.mem_map_of_mem Prod.fst h
      simp only [List.map_cons, List.sum_cons]
      rw [if_neg hek, ih hnd' h]
      ring

theorem sum_updateOrRemove (l : List (ℤ × ℤ)) (k w v : ℤ)
    (hnd : (l.map Prod.fst).Nodup) (hmem : (k, w) ∈ l) :
    ((updateOrRemove l k v).map Prod.snd).sum = (l.map Prod.snd).sum - w + v := by
  unfold updateOrRemove
  split
  · rename_i hv
    rw [sum_filter_out_key l k w hnd hmem, hv, add_zero]
  · exact sum_mapUpdate_key l k w v hnd hmem

theorem applyNet_nil (u : ℤ) : applyNet u [] = 0 := rfl

theorem applyNet_cons (u : ℤ) (t : Settlement) (ts : List Settlement) :
    applyNet u (t :: ts)
      = ((if t.from_user = u then t.amount else 0)
          - (if t.to_user = u then t.amount else 0)) + applyNet u ts := by
  unfold applyNet
  simp

theorem sum_nonpos_of_forall (l : List ℤ) (h : ∀ x ∈ l, x ≤ 0) : l.sum ≤ 0 := by
  induction l with
  | nil => simp
  | cons x xs ih =>
    simp only [List.sum_cons]
    have h1 := h x (List.mem_cons_self _ _)
    have h2 := ih (fun y hy => h y (List.mem_cons_of_mem _ hy))
    omega

theorem sum_neg_nil (l : List (ℤ × ℤ)) (hneg : ∀ e ∈ l, e.2 < 0)
    (hsum : (l.map Prod.snd).sum = 0) : l = [] := by
  cases l with
  | nil => rfl
  | cons e tl =>
    exfalso
    have h1 : e.2 < 0 := hneg e (List.mem_cons_self _ _)
    have h2 : (tl.map Prod.snd).sum ≤ 0 := by
      apply sum_nonpos_of_forall
      intro x hx
      rcases List.mem_map.mp hx with ⟨y, hy, hxy⟩
      have := hneg y (List.mem_cons_of_mem _ hy)
      omega
    simp only [List.map_cons, List.sum_cons] at hsum
    omega

theorem sum_nonneg_of_forall (l : List ℤ) (h : ∀ x ∈ l, 0 ≤ x) : 0 ≤ l.sum := by
  induction l with
  | nil => simp
  | cons x xs ih =>
    simp only [List.sum_cons]
    have h1 := h x (List.mem_cons_self _ _)
    have h2 := ih (fun y hy => h y (List.mem_cons_of_mem _ hy))
    omega

theorem sum_pos_nil (l : List (ℤ × ℤ)) (hpos : ∀ e ∈ l, 0 < e.2)
    (hsum : (l.map Prod.snd).sum = 0) : l = [] := by
  cases l with
  | nil => rfl
  | cons e tl =>
    exfalso
    have h1 : 0 < e.2 := hpos e (List.mem_cons_self _ _)
    have h2 : 0 ≤ (tl.map Prod.snd).sum := by
      apply sum_nonneg_of_forall
      intro x hx
      rcases List.mem_map.mp hx with ⟨y, hy, hxy⟩
      have := hpos y (List.mem_cons_of_mem _ hy)
      omega
    simp only [List.map_cons, List.sum_cons] at hsum
    omega

theorem settleLoop_succ (fuel : ℕ) (d c : List (ℤ × ℤ)) (dp cp : ℤ × ℤ)
    (hdp : pickDebtor d = some dp) (hcp : pickCreditor c = some cp) :
    settleLoop (fuel + 1) d c
      = ⟨dp.1, cp.1, min (-dp.2) cp.2⟩ ::
        settleLoop fuel (updateOrRemove d dp.1 (dp.2 + min (-dp.2) cp.2))
          (updateOrRemove c cp.1 (cp.2 - min (-dp.2) cp.2)) := by
  conv_lhs => rw [settleLoop]
  rw [hdp, hcp]

theorem settleLoop_net (fuel : ℕ) :
    ∀ (d c : List (ℤ × ℤ)),
      (∀ e ∈ d, e.2 < 0) → (∀ e ∈ c, 0 < e.2) →
      ((d ++ c).map Prod.fst).Nodup →
      ((d ++ c).map Prod.snd).sum = 0 →
      d.length + c.length ≤ fuel →
      ∀ u, applyNet u (settleLoop fuel d c) = -(lbal d u + lbal c u) := by
  induction fuel with
  | zero =>
    intro d c _ _ _ _ hfuel u
    have hd : d = [] := List.length_eq_zero.mp (by omega)
    have hc : c = [] := List.length_eq_zero.mp (by omega)
    subst hd
    subst hc
    simp [settleLoop, applyNet_nil, lbal_nil]
  | succ fuel ih =>
    intro d c hd hc hnd hsum hfuel u
    rw [List.map_append] at hnd
    have hndd : (d.map Prod.fst).Nodup := (List.nodup_append.mp hnd).1
    have hndc : (c.map Prod.fst).Nodup := (List.nodup_append.mp hnd).2.1
    have hdisj : (d.map Prod.fst).Disjoint (c.map Prod.fst) := (List.nodup_append.mp hnd).2.2
    rw [List.map_append, List.sum_append] at hsum
    cases d with
    | nil =>
      have hcnil : c = [] := sum_pos_nil c hc (by simpa using hsum)
      subst hcnil
      rw [show settleLoop (fuel + 1) ([] : List (ℤ × ℤ)) [] = [] from rfl, applyNet_nil]
      show (0 : ℤ) = -(0 + 0)
      norm_num
    | cons d0 dtl =>
      cases c with
      | nil =>
        exfalso
        have hnil := sum_neg_nil (d0 :: dtl) hd (by simpa using hsum)
        cases hnil
      | cons c0 ctl =>
        obtain ⟨dp, hdp⟩ : ∃ dp, pickDebtor (d0 :: dtl) = some dp := ⟨_, rfl⟩
        obtain ⟨cp, hcp⟩ : ∃ cp, pickCreditor (c0 :: ctl) = some cp := ⟨_, rfl⟩
        set d := d0 :: dtl with hdDef
        set c := c0 :: ctl with hcDef
        have hdpm : dp ∈ d := pickDebtor_mem _ _ hdp
        have hcpm : cp ∈ c := pickCreditor_mem _ _ hcp
        have hdpneg : dp.2 < 0 := hd dp hdpm
        have hcppos : 0 < cp.2 := hc cp hcpm
        have hne : dp.1 ≠ cp.1 := by
          intro hkey
          exact hdisj (List.mem_map_of_mem Prod.fst hdpm)
            (hkey ▸ List.mem_map_of_mem Prod.fst hcpm)
        set m := min (-dp.2) cp.2 with hm
        have hmled : m ≤ -dp.2 := min_le_left _ _
        have hmlec : m ≤ cp.2 := min_le_right _ _
        have hdpp : (dp.1, dp.2) ∈ d := by simpa using hdpm
        have hcpp : (cp.1, cp.2) ∈ c := by simpa using hcpm
        set d' := updateOrRemove d dp.1 (dp.2 + m) with hd'Def
        set c' := updateOrRemove c cp.1 (cp.2 - m) with hc'Def
        have hd' : ∀ e ∈ d', e.2 < 0 := by
          intro e he
          rcases updateOrRemove_mem _ _ _ _ he with h | ⟨heq, hnz⟩
          · exact hd e h
          · rw [heq]
            simp only []
            omega
        have hc' : ∀ e ∈ c', 0 < e.2 := by
          intro e he
          rcases updateOrRemove_mem _ _ _ _ he with h | ⟨heq, hnz⟩
          · exact hc e h
          · rw [heq]
            simp only []
            omega
        have hndd' : (d'.map Prod.fst).Nodup :=
          List.Nodup.sublist (updateOrRemove_keys_sublist _ _ _) hndd
        have hndc' : (c'.map Prod.fst).Nodup :=
          List.Nodup.sublist (updateOrRemove_keys_sublist _ _ _) hndc
        have hnd' : ((d' ++ c').map Prod.fst).Nodup := by
          rw [List.map_append]
          refine List.nodup_append.mpr ⟨hndd', hndc', ?_⟩
          intro a ha hb
          exact hdisj ((updateOrRemove_keys_sublist _ _ _).subset ha)
            ((updateOrRemove_keys_sublist _ _ _).subset hb)
        have hsum' : ((d' ++ c').map Prod.snd).sum = 0 := by
          rw [List.map_append, List.sum_append, hd'Def, hc'Def,
            sum_updateOrRemove d dp.1 dp.2 _ hndd hdpp,
            sum_updateOrRemove c cp.1 cp.2 _ hndc hcpp]
          omega
        have hlen : d'.length + c'.length ≤ fuel := by
          have hlfuel : d.length + c.length ≤ fuel + 1 := hfuel
          rcases min_choice (-dp.2) cp.2 with hmc | hmc
          · have h0 : dp.2 + m = 0 := by omega
            have h1 : d'.length < d.length := by
              rw [hd'Def, h0]
              exact updateOrRemove_length_lt d dp.1 dp.2 hdpp
            have h2 : c'.length ≤ c.length := updateOrRemove_length_le _ _ _
            omega
          · have h0 : cp.2 - m = 0 := by omega
            have h1 : c'.length < c.length := by
              rw [hc'Def, h0]
              exact updateOrRemove_length_lt c cp.1 cp.2 hcpp
            have h2 : d'.length ≤ d.length := updateOrRemove_length_le _ _ _
            omega
        rw [settleLoop_succ fuel d c dp cp hdp hcp, applyNet_cons,
          ih d' c' hd' hc' hnd' hsum' hlen u]
        simp only []
        by_cases hu1 : dp.1 = u
        · subst hu1
          rw [if_pos rfl, if_neg (fun h : cp.1 = dp.1 => hne h.symm)]
          rw [hd'Def, hc'Def,
            lbal_updateOrRemove_eq d dp.1 dp.2 (dp.2 + m) hndd hdpp,
            lbal_updateOrRemove_ne c cp.1 (cp.2 - m) dp.1 hne,
            lbal_eq_of_mem d dp.1 dp.2 hndd hdpp]
          ring
        · by_cases hu2 : cp.1 = u
          · subst hu2
            rw [if_neg hu1, if_pos rfl]
            rw [hd'Def, hc'Def,
              lbal_updateOrRemove_ne d dp.1 (dp.2 + m) cp.1 (Ne.symm hne),
              lbal_updateOrRemove_eq c cp.1 cp.2 (cp.2 - m) hndc hcpp,
              lbal_eq_of_mem c cp.1 cp.2 hndc hcpp]
            ring
          · rw [if_neg hu1, if_neg hu2]
            rw [hd'Def, hc'Def,
              lbal_updateOrRemove_ne d dp.1 (dp.2 + m) u (fun h => hu1 h.symm),
              lbal_updateOrRemove_ne c cp.1 (cp.2 - m) u (fun h => hu2 h.symm)]
            ring

theorem settleLoop_length (fuel : ℕ) :
    ∀ d c : List (ℤ × ℤ), (settleLoop fuel d c).length ≤ d.length + c.length - 1 := by
  induction fuel with
  | zero =>
    intro d c
    simp [settleLoop]
  | succ fuel ih =>
    intro d c
    cases hd : pickDebtor d with
    | none =>
      cases d with
      | nil =>
        have hnil : settleLoop (fuel + 1) ([] : List (ℤ × ℤ)) c = [] := by
          conv_lhs => rw [settleLoop]
          cases hpc : pickCreditor c <;> rfl
        rw [hnil]
        simp
      | cons d0 dtl => cases hd
    | some dp =>
      cases hc : pickCreditor c with
      | none =>
        cases c with
        | nil =>
          have hnil : settleLoop (fuel + 1) d ([] : List (ℤ × ℤ)) = [] := by
            conv_lhs => rw [settleLoop]
            rw [hd]
            rfl
          rw [hnil]
          simp
        | cons c0 ctl => cases hc
      | some cp =>
        rw [settleLoop_succ fuel d c dp cp hd hc]
        simp only [List.length_cons]
        have hdm := pickDebtor_mem _ _ hd
        have hcm := pickCreditor_mem _ _ hc
        have hd1 : 1 ≤ d.length := List.length_pos.mpr (fun h => by subst h; cases hdm)
        have hc1 : 1 ≤ c.length := List.length_pos.mpr (fun h => by subst h; cases hcm)
        have hrec := ih (updateOrRemove d dp.1 (dp.2 + min (-dp.2) cp.2))
          (updateOrRemove c cp.1 (cp.2 - min (-dp.2) cp.2))
        have hdpp : (dp.1, dp.2) ∈ d := by simpa using hdm
        have hcpp : (cp.1, cp.2) ∈ c := by simpa using hcm
        have hdle := updateOrRemove_length_le d dp.1 (dp.2 + min (-dp.2) cp.2)
        have hcle := updateOrRemove_length_le c cp.1 (cp.2 - min (-dp.2) cp.2)
        rcases min_choice (-dp.2) cp.2 with hmc | hmc
        · have h0 : dp.2 + min (-dp.2) cp.2 = 0 := by omega
          have hlt : (updateOrRemove d dp.1 (dp.2 + min (-dp.2) cp.2)).length < d.length := by
            rw [h0]
            exact updateOrRemove_length_lt d dp.1 dp.2 hdpp
          omega
        · have h0 : cp.2 - min (-dp.2) cp.2 = 0 := by omega
          have hlt : (updateOrRemove c cp.1 (cp.2 - min (-dp.2) cp.2)).length < c.length := by
            rw [h0]
            exact updateOrRemove_length_lt c cp.1 cp.2 hcpp
          omega

theorem nonZeroCount_eq (l : List (ℤ × ℤ)) :
    nonZeroCount l
      = (l.filter fun b => b.2 < 0).length + (l.filter fun b => b.2 > 0).length := by
  unfold nonZeroCount
  induction l with
  | nil => rfl
  | cons e tl ih =>
    rcases lt_trichotomy e.2 0 with h | h | h
    · rw [List.filter_cons_of_pos (by simp only [decide_eq_true_eq]; omega),
        List.filter_cons_of_pos (by simpa using h),
        List.filter_cons_of_neg (by simp only [decide_eq_true_eq]; omega)]
      simp only [List.length_cons]
      omega
    · rw [List.filter_cons_of_neg (by simp only [decide_eq_true_eq]; omega),
        List.filter_cons_of_neg (by simp only [decide_eq_true_eq]; omega),
        List.filter_cons_of_neg (by simp only [decide_eq_true_eq]; omega)]
      exact ih
    · rw [List.filter_cons_of_pos (by simp only [decide_eq_true_eq]; omega),
        List.filter_cons_of_neg (by simp only [decide_eq_true_eq]; omega),
        List.filter_cons_of_pos (by simpa using h)]
      simp only [List.length_cons]
      omega

theorem sum_filter_pos_neg (l : List (ℤ × ℤ)) :
    ((l.filter fun b => b.2 < 0).map Prod.snd).sum
      + ((l.filter fun b => b.2 > 0).map Prod.snd).sum
      = (l.map Prod.snd).sum := by
  induction l with
  | nil => rfl
  | cons e tl ih =>
    rcases lt_trichotomy e.2 0 with h | h | h
    · rw [List.filter_cons_of_pos (by simpa using h),
        List.filter_cons_of_neg (by simp only [decide_eq_true_eq]; omega)]
      simp only [List.map_cons, List.sum_cons]
      omega
    · rw [List.filter_cons_of_neg (by simp only [decide_eq_true_eq]; omega),
        List.filter_cons_of_neg (by simp only [decide_eq_true_eq]; omega)]
      simp only [List.map_cons, List.sum_cons]
      omega
    · rw [List.filter_cons_of_neg (by simp only [decide_eq_true_eq]; omega),
        List.filter_cons_of_pos (by simpa using h)]
      simp only [List.map_cons, List.sum_cons]
      omega

theorem lbal_filter_of_mem (l : List (ℤ × ℤ)) (hnd : (l.map Prod.fst).Nodup)
    (e : ℤ × ℤ) (he : e ∈ l) (p : ℤ × ℤ → Bool) :
    lbal (l.filter p) e.1 = if p e then e.2 else 0 := by
  have hfnd : ((l.filter p).map Prod.fst).Nodup :=
    List.Nodup.sublist (List.Sublist.map _ (List.filter_sublist _)) hnd
  by_cases hp : p e
  · rw [if_pos hp]
    apply lbal_eq_of_mem _ _ _ hfnd
    have : e ∈ l.filter p := List.mem_filter.mpr ⟨he, hp⟩
    simpa using this
  · rw [if_neg hp]
    apply lbal_zero_of_not_mem
    intro hk
    rcases List.mem_map.mp hk with ⟨e', he', hkey⟩
    have he'l : e' ∈ l := List.mem_of_mem_filter he'
    have : e' = e := List.inj_on_of_nodup_map hnd he'l he hkey
    subst this
    exact hp (List.of_mem_filter he')

/-- C5: for every balance list with distinct user keys whose entries sum
to (approximately) zero — in integer cents, exactly zero — applying the
Settlement Reducer's output transfers drives every balance to zero, the
number of transfers is at most `max 0 (nonZeroBalanceCount − 1)`, and
the output is empty when every balance is already zero. -/
theorem settlement_correctness (balances : List (ℤ × ℤ))
    (hnd : (balances.map Prod.fst).Nodup)
    (hsum : (balances.map Prod.snd).sum = 0) :
    (∀ e ∈ balances, e.2 + applyNet e.1 (reduceToSettlements balances) = 0)
  ∧ (reduceToSettlements balances).length ≤ max 0 (nonZeroCount balances - 1)
  ∧ ((∀ e ∈ balances, e.2 = 0) → reduceToSettlements balances = []) := by
  have hdebkeys : ((balances.filter fun b => b.2 < 0).map Prod.fst).Nodup :=
    List.Nodup.sublist (List.Sublist.map _ (List.filter_sublist _)) hnd
  have hcredkeys : ((balances.filter fun b => b.2 > 0).map Prod.fst).Nodup :=
    List.Nodup.sublist (List.Sublist.map _ (List.filter_sublist _)) hnd
  have hdisj : ((balances.filter fun b => b.2 < 0).map Prod.fst).Disjoint
      ((balances.filter fun b => b.2 > 0).map Prod.fst) := by
    intro k hk1 hk2
    rcases List.mem_map.mp hk1 with ⟨e1, he1, hke1⟩
    rcases List.mem_map.mp hk2 with ⟨e2, he2, hke2⟩
    have he1l : e1 ∈ balances := List.mem_of_mem_filter he1
    have he2l : e2 ∈ balances := List.mem_of_mem_filter he2
    have heq : e1 = e2 := List.inj_on_of_nodup_map hnd he1l he2l (by rw [hke1, hke2])
    have h1 : e1.2 < 0 := by simpa using List.of_mem_filter he1
    have h2 : e2.2 > 0 := by simpa using List.of_mem_filter he2
    rw [heq] at h1
    omega
  have hkeys : (((balances.filter fun b => b.2 < 0)
      ++ (balances.filter fun b => b.2 > 0)).map Prod.fst).Nodup := by
    rw [List.map_append]
    exact List.nodup_append.mpr ⟨hdebkeys, hcredkeys, hdisj⟩
  have hsum0 : (((balances.filter fun b => b.2 < 0)
      ++ (balances.filter fun b => b.2 > 0)).map Prod.snd).sum = 0 := by
    rw [List.map_append, List.sum_append, sum_filter_pos_neg]
    exact hsum
  have hdsign : ∀ e ∈ balances.filter fun b => b.2 < 0, e.2 < 0 := by
    intro e he
    simpa using List.of_mem_filter he
  have hcsign : ∀ e ∈ balances.filter fun b => b.2 > 0, 0 < e.2 := by
    intro e he
    simpa using List.of_mem_filter he
  refine ⟨?_, ?_, ?_⟩
  · intro e he
    unfold reduceToSettlements
    rw [settleLoop_net _ _ _ hdsign hcsign hkeys hsum0 le_rfl e.1]
    rw [lbal_filter_of_mem balances hnd e he _, lbal_filter_of_mem balances hnd e he _]
    rcases lt_trichotomy e.2 0 with h | h | h
    · rw [if_pos (by simpa using h), if_neg (by simp only [decide_eq_true_eq]; omega)]
      omega
    · rw [if_neg (by simp only [decide_eq_true_eq]; omega),
        if_neg (by simp only [decide_eq_true_eq]; omega)]
      omega
    · rw [if_neg (by simp only [decide_eq_true_eq]; omega), if_pos (by simpa using h)]
      omega
  · simp only [reduceToSettlements]
    have hlen := settleLoop_length
      ((balances.filter fun b => b.2 < 0).length + (balances.filter fun b => b.2 > 0).length)
      (balances.filter fun b => b.2 < 0) (balances.filter fun b => b.2 > 0)
    rw [nonZeroCount_eq]
    omega
  · intro hz
    unfold reduceToSettlements
    have hdeb : balances.filter (fun b => b.2 < 0) = [] := by
      apply List.filter_eq_nil.mpr
      intro e he
      simp only [decide_eq_true_eq]
      have := hz e he
      omega
    have hcred : balances.filter (fun b => b.2 > 0) = [] := by
      apply List.filter_eq_nil.mpr
      intro e he
      simp only [decide_eq_true_eq]
      have := hz e he
      omega
    rw [hdeb, hcred]
    rfl

theorem settlement_correctness_witness :
    (∀ e ∈ ([(1, 5000), (2, 2500), (3, -7500)] : List (ℤ × ℤ)),
      e.2 + applyNet e.1 (reduceToSettlements [(1, 5000), (2, 2500), (3, -7500)]) = 0)
  ∧ (reduceToSettlements [(1, 5000), (2, 2500), (3, -7500)]).length
      ≤ max 0 (nonZeroCount [(1, 5000), (2, 2500), (3, -7500)] - 1)
  ∧ reduceToSettlements [(1, 0), (2, 0)] = [] := by
  have h1 := settlement_correctness [(1, 5000), (2, 2500), (3, -7500)] (by decide) (by decide)
  have h2 := settlement_correctness [(1, 0), (2, 0)] (by decide) (by decide)
  exact ⟨h1.1, h1.2.1, h2.2.2 (by decide)⟩

end Neurix
